import Mathlib

/-!
Shallow embedding of `fastapy/fastapy.py` (module constants, the
`Sequence` class and its static helpers).  Strings are Lean `String`s,
manipulated through their underlying `List Char`; Python's exceptions are
modelled by an explicit error type returned through `Except`.
-/

/-- LINE_LENGTH = 80 -/
def LINE_LENGTH : Nat := 80

/-- ENTRY_DELIM_CHAR = '>' (a one-character Python string). -/
def ENTRY_DELIM_CHAR : String := ">"

/-- VALID_NUCLEIC_ACIDS = 'ACGTNUKSYMWRBDHV-' -/
def VALID_NUCLEIC_ACIDS : String := "ACGTNUKSYMWRBDHV-"

/-- VALID_AMINO_ACIDS = 'APBQCRDSETFUGVHWIYKZLXMN*-' -/
def VALID_AMINO_ACIDS : String := "APBQCRDSETFUGVHWIYKZLXMN*-"

/-- `os.linesep` on the POSIX platforms the library targets. -/
def os_linesep : String := "\n"

/-- The characters at which Python's `str.splitlines` breaks a line:
newline, carriage return (with `\r\n` counting as a single break),
vertical tab, form feed, the three ASCII separator controls, NEL, and the
Unicode line/paragraph separators. -/
def isPyLineBreak (c : Char) : Bool :=
  c == '\n' || c == '\r' || c == '\x0b' || c == '\x0c' ||
  c == '\x1c' || c == '\x1d' || c == '\x1e' || c == '\x85' ||
  c == '\u2028' || c == '\u2029'

/-- Worker for `str.splitlines` (keepends=False).  `acc` holds the current
line, reversed; `afterCR` records that the previous character was a `\r`
that already ended a line, so that an immediately following `\n` is
consumed silently (the `\r\n` pair is one break). -/
def splitlinesGo : List Char → List Char → Bool → List String
  | [], acc, _ => if acc = [] then [] else [⟨acc.reverse⟩]
  | c :: rest, acc, afterCR =>
    if afterCR && c == '\n' then
      splitlinesGo rest acc false
    else if isPyLineBreak c then
      ⟨acc.reverse⟩ :: splitlinesGo rest [] (c == '\r')
    else
      splitlinesGo rest (c :: acc) false

/-- Python `entry.splitlines()`. -/
def py_splitlines (s : String) : List String := splitlinesGo s.data [] false

/-- Python `s.startswith(pfx)`. -/
def py_startswith (s pfx : String) : Bool :=
  decide (s.data.take pfx.data.length = pfx.data)

/-- One character under Python `str.upper()`, which maps each character to a
(possibly multi-character) uppercase expansion by the Unicode default case
conversion.  Every mapping whose result can land inside the ASCII residue
alphabets is modelled exactly: ASCII `a`–`z`, the dotless i U+0131 → `I` and
the long s U+017F → `S` (the only characters beyond `a`–`z` whose simple
uppercase is an ASCII letter), and the unconditional special casings whose
expansions consist purely of ASCII letters — sharp s U+00DF → `SS` and the
Latin ligatures U+FB00–U+FB06 (`FF`, `FI`, `FL`, `FFI`, `FFL`, `ST`, `ST`) —
plus U+0149 → U+02BC `N`.  The real uppercase of every remaining character is
either the character itself or contains a character outside both residue
alphabets (a non-ASCII letter or a combining mark), so modelling it by
`Char.toUpper` (identity off `a`–`z`) is indistinguishable to this program's
alphabet test. -/
def py_char_upper (c : Char) : List Char :=
  if c = 'ß' then ['S', 'S']
  else if c = 'ı' then ['I']
  else if c = 'ſ' then ['S']
  else if c = 'ŉ' then ['ʼ', 'N']
  else if c = 'ﬀ' then ['F', 'F']
  else if c = 'ﬁ' then ['F', 'I']
  else if c = 'ﬂ' then ['F', 'L']
  else if c = 'ﬃ' then ['F', 'F', 'I']
  else if c = 'ﬄ' then ['F', 'F', 'L']
  else if c = 'ﬅ' then ['S', 'T']
  else if c = 'ﬆ' then ['S', 'T']
  else [c.toUpper]

/-- Python `s.upper()`: concatenation of the per-character expansions. -/
def str_upper (s : String) : String := ⟨(s.data.map py_char_upper).flatten⟩

/-- Python `s.translate(table)` where `table` maps every character of
`delchars` to `None`: delete every occurrence of those characters. -/
def py_translate_delete (s delchars : String) : String :=
  ⟨s.data.filter (fun c => decide (c ∉ delchars.data))⟩

/-- `validate_sequence(sequence, valid_chars)` from `validate_fasta`:
`len(sequence.upper().translate(delchars)) == 0`. -/
def validate_sequence (sequence valid_chars : String) : Bool :=
  decide ((py_translate_delete (str_upper sequence) valid_chars).data.length = 0)

/-- The spec's `is_nucleic_acid`: `validate_sequence` against the
nucleic-acid table. -/
def is_nucleic_acid (s : String) : Bool := validate_sequence s VALID_NUCLEIC_ACIDS

/-- The spec's `is_amino_acid`: `validate_sequence` against the
amino-acid table. -/
def is_amino_acid (s : String) : Bool := validate_sequence s VALID_AMINO_ACIDS

/-- Python `range(0, stop, step)` for `step ≥ 1`: the multiples of `step`
below `stop`, i.e. `[0, step, 2*step, ...]` with `⌈stop/step⌉` elements.
(`range` with step 0 raises `ValueError` in Python; every claim about the
wrapper assumes a width of at least 1.) -/
def py_range_step (stop step : Nat) : List Nat :=
  (List.range ((stop + step - 1) / step)).map (· * step)

/-- Python `s[i:i+n]` (slices clamp at the end of the string). -/
def py_slice (s : String) (i n : Nat) : String := ⟨(s.data.drop i).take n⟩

/-- The list comprehension inside `split_text`:
`string[i:i + line_length] for i in range(0, len(string), line_length)`. -/
def split_text_chunks (string : String) (line_length : Nat) : List String :=
  (py_range_step string.data.length line_length).map
    (fun i => py_slice string i line_length)

/-- Python `sep.join(parts)` at the character-list level. -/
def joinSep (sep : List Char) : List (List Char) → List Char
  | [] => []
  | [l] => l
  | l :: l2 :: rest => l ++ sep ++ joinSep sep (l2 :: rest)

/-- Python `''.join(parts)`. -/
def py_join0 (parts : List String) : String := ⟨(parts.map String.data).flatten⟩

/-- `Sequence.split_text(string, join_char, line_length)`. -/
def split_text (string join_char : String) (line_length : Nat) : String :=
  ⟨joinSep join_char.data ((split_text_chunks string line_length).map String.data)⟩

/-- The `Sequence` class: `header`, `sequence` (the residues) and the
lazily cached fasta rendering `_fasta` (`None` until first read). -/
structure Sequence where
  header : String
  sequence : String
  _fasta : Option String
deriving DecidableEq

/-- The Python exceptions that the modelled code paths can raise. -/
inductive PyExc where
  | AttributeError
  | InvalidFastaSequenceException
deriving DecidableEq

/-- `Sequence._to_fasta` with the width of the `split_text` call exposed
as a parameter (the source fixes it to the `LINE_LENGTH` default):
`'{}\n{}'.format(ENTRY_DELIM_CHAR + self.header, self.split_text(self.sequence))`. -/
def Sequence.to_fasta_w (s : Sequence) (line_length : Nat) : String :=
  ⟨ENTRY_DELIM_CHAR.data ++ s.header.data ++
    '\n' :: (split_text s.sequence os_linesep line_length).data⟩

/-- `Sequence._to_fasta` exactly as in the source. -/
def Sequence.to_fasta (s : Sequence) : String := s.to_fasta_w LINE_LENGTH

/-- The `fasta` property getter: return the cached rendering, computing
and storing it on first access.  Returns the value together with the
(possibly updated) object. -/
def Sequence.fasta_get (s : Sequence) : String × Sequence :=
  match s._fasta with
  | some f => (f, s)
  | none => (s.to_fasta, ⟨s.header, s.sequence, some s.to_fasta⟩)

/-- `Sequence.validate_fasta(entry)`.  The source first requires at least
two lines, then that line 0 start with the entry delimiter; `header` is
`lines[0][1:]`, `sequence` is `''.join(lines[1:])`; the entry is valid if
the uppercased sequence consists purely of nucleic-acid symbols or purely
of amino-acid symbols.  `False` is modelled as `none`. -/
def Sequence.validate_fasta (entry : String) : Option Sequence :=
  match py_splitlines entry with
  | l0 :: l1 :: rest =>
    if py_startswith l0 ENTRY_DELIM_CHAR then
      let header : String := ⟨l0.data.drop 1⟩
      let sequence : String := py_join0 (l1 :: rest)
      if validate_sequence sequence VALID_NUCLEIC_ACIDS
          || validate_sequence sequence VALID_AMINO_ACIDS then
        some ⟨header, sequence, none⟩
      else
        none
    else
      none
  | _ => none

deriving instance DecidableEq for Except

/-- The `fasta` property setter exactly as written.  Its first statement
is `sequence = self.validate(fasta_sequence)`, but the class defines no
attribute `validate` (the validator is the static method
`validate_fasta`), so the attribute lookup raises `AttributeError` before
anything else runs, for every input. -/
def Sequence.fasta_set (s : Sequence) (fasta_sequence : String) :
    Except PyExc Sequence :=
  Except.error PyExc.AttributeError

/-- The `fasta` setter with its one-token slip repaired (`self.validate`
read as `Sequence.validate_fasta`, the only validator in the class); the
remaining statements are modelled exactly: raise
`InvalidFastaSequenceException` when validation returns `False`,
otherwise overwrite `header` and `sequence`.  Note that `_fasta` is never
reset, so a previously cached rendering survives the update. -/
def Sequence.fasta_set_intended (s : Sequence) (fasta_sequence : String) :
    Except PyExc Sequence :=
  match Sequence.validate_fasta fasta_sequence with
  | none => Except.error PyExc.InvalidFastaSequenceException
  | some seq => Except.ok ⟨seq.header, seq.sequence, s._fasta⟩

/-! ### Helper lemmas about strings and `splitlines` -/

theorem mk_data (s : String) : String.mk s.data = s := rfl

theorem map_mk_data (ls : List String) : (ls.map String.data).map String.mk = ls := by
  induction ls with
  | nil => rfl
  | cons x xs ih => simp [ih]

theorem splitlinesGo_afterCR (b acc : List Char) (hb : b.head? ≠ some '\n') :
    splitlinesGo b acc true = splitlinesGo b acc false := by
  cases b with
  | nil => rfl
  | cons c rest =>
    have hc : (c == '\n') = false := by
      simp only [List.head?_cons, ne_eq, Option.some.injEq] at hb
      simp [hb]
    simp [splitlinesGo, hc]

theorem splitlinesGo_break (a : List Char) (c : Char) (b acc : List Char)
    (ha : ∀ x ∈ a, isPyLineBreak x = false)
    (hc : isPyLineBreak c = true)
    (hcr : c = '\r' → b.head? ≠ some '\n') :
    splitlinesGo (a ++ c :: b) acc false
      = String.mk (acc.reverse ++ a) :: splitlinesGo b [] false := by
  induction a generalizing acc with
  | nil =>
    by_cases h : c = '\r'
    · subst h
      simp [splitlinesGo, hc, splitlinesGo_afterCR b [] (hcr rfl)]
    · have h' : (c == '\r') = false := by simp [h]
      simp [splitlinesGo, hc, h']
  | cons x a ih =>
    have hx : isPyLineBreak x = false := ha x (by simp)
    have h1 : splitlinesGo (x :: (a ++ c :: b)) acc false
        = splitlinesGo (a ++ c :: b) (x :: acc) false := by
      simp [splitlinesGo, hx]
    simp only [List.cons_append, h1]
    rw [ih (x :: acc) (fun y hy => ha y (by simp [hy]))]
    simp

theorem splitlinesGo_crlf (a b acc : List Char)
    (ha : ∀ x ∈ a, isPyLineBreak x = false) :
    splitlinesGo (a ++ '\r' :: '\n' :: b) acc false
      = String.mk (acc.reverse ++ a) :: splitlinesGo b [] false := by
  induction a generalizing acc with
  | nil =>
    have hr : isPyLineBreak '\r' = true := by decide
    simp [splitlinesGo, hr]
  | cons x a ih =>
    have hx : isPyLineBreak x = false := ha x (by simp)
    have h1 : splitlinesGo (x :: (a ++ '\r' :: '\n' :: b)) acc false
        = splitlinesGo (a ++ '\r' :: '\n' :: b) (x :: acc) false := by
      simp [splitlinesGo, hx]
    simp only [List.cons_append, h1]
    rw [ih (x :: acc) (fun y hy => ha y (by simp [hy]))]
    simp

theorem splitlinesGo_last (a acc : List Char)
    (ha : ∀ x ∈ a, isPyLineBreak x = false)
    (hne : acc.reverse ++ a ≠ []) :
    splitlinesGo a acc false = [String.mk (acc.reverse ++ a)] := by
  induction a generalizing acc with
  | nil =>
    have h1 : acc ≠ [] := by
      intro h; subst h; simp at hne
    simp [splitlinesGo, h1]
  | cons x a ih =>
    have hx : isPyLineBreak x = false := ha x (by simp)
    have h1 : splitlinesGo (x :: a) acc false = splitlinesGo a (x :: acc) false := by
      simp [splitlinesGo, hx]
    rw [h1, ih (x :: acc) (fun y hy => ha y (by simp [hy])) (by simp)]
    simp

theorem splitlinesGo_joinSep (ls : List (List Char))
    (hne : ls ≠ [])
    (h : ∀ l ∈ ls, l ≠ [] ∧ ∀ c ∈ l, isPyLineBreak c = false) :
    splitlinesGo (joinSep ['\n'] ls) [] false = ls.map String.mk := by
  induction ls with
  | nil => cases hne rfl
  | cons l ls ih =>
    cases ls with
    | nil =>
      obtain ⟨hl, hbr⟩ := h l (by simp)
      show splitlinesGo l [] false = _
      rw [splitlinesGo_last l [] hbr (by simpa using hl)]
      simp
    | cons l2 ls2 =>
      obtain ⟨hl, hbr⟩ := h l (by simp)
      have hstep : joinSep ['\n'] (l :: l2 :: ls2)
          = l ++ '\n' :: joinSep ['\n'] (l2 :: ls2) := by
        simp [joinSep]
      rw [hstep,
        splitlinesGo_break l '\n' _ [] hbr (by decide) (fun hab => absurd hab (by decide))]
      rw [ih (by simp) (fun x hx => h x (by simp [hx]))]
      simp

/-! ### Helper lemmas about the chunking comprehension -/

theorem chunksA (k : Nat) (w : Nat) (hw : 1 ≤ w) :
    ∀ l : List Char, l.length ≤ k * w →
      ((List.range k).map (fun j => (l.drop (j * w)).take w)).flatten = l := by
  induction k with
  | zero =>
    intro l hl
    simp only [Nat.zero_mul, Nat.le_zero] at hl
    simp [List.eq_nil_of_length_eq_zero hl]
  | succ k ih =>
    intro l hl
    rw [List.range_succ_eq_map, List.map_cons, List.map_map, List.flatten_cons]
    have h1 : ((fun j => (l.drop (j * w)).take w) ∘ Nat.succ)
        = fun j => ((l.drop w).drop (j * w)).take w := by
      funext j
      simp only [Function.comp_apply, List.drop_drop]
      rw [Nat.succ_mul, Nat.add_comm]
    rw [h1]
    have hlen : (l.drop w).length ≤ k * w := by
      have h2 : (k + 1) * w = k * w + w := Nat.succ_mul k w
      have h3 := List.length_drop w l
      generalize k * w = m at *
      omega
    rw [ih (l.drop w) hlen]
    simp [Nat.zero_mul]

theorem length_split_text_chunks (s : String) (w : Nat) :
    (split_text_chunks s w).length = (s.data.length + w - 1) / w := by
  simp [split_text_chunks, py_range_step]

theorem ceil_le_mul (len w : Nat) (hw : 1 ≤ w) :
    len ≤ ((len + w - 1) / w) * w := by
  have hd := Nat.div_add_mod (len + w - 1) w
  have hm : (len + w - 1) % w < w := Nat.mod_lt _ (by omega)
  rw [Nat.mul_comm]
  generalize hA : w * ((len + w - 1) / w) = A at hd ⊢
  omega

theorem index_mul_lt (len w j : Nat) (hw : 1 ≤ w)
    (hj : j < (len + w - 1) / w) : j * w < len := by
  have h1 : (j + 1) * w ≤ ((len + w - 1) / w) * w :=
    Nat.mul_le_mul_right w hj
  have h2 : ((len + w - 1) / w) * w ≤ len + w - 1 := Nat.div_mul_le_self _ w
  rw [Nat.succ_mul] at h1
  generalize j * w = A at h1 ⊢
  generalize ((len + w - 1) / w) * w = B at h1 h2
  omega

theorem flatten_split_text_chunks (s : String) (w : Nat) (hw : 1 ≤ w) :
    ((split_text_chunks s w).map String.data).flatten = s.data := by
  show ((((List.range ((s.data.length + w - 1) / w)).map (· * w)).map
      (fun i => py_slice s i w)).map String.data).flatten = s.data
  rw [List.map_map, List.map_map]
  have h1 : (String.data ∘ (fun i => py_slice s i w)) ∘ (· * w)
      = fun j => (s.data.drop (j * w)).take w := rfl
  rw [h1]
  exact chunksA _ w hw s.data (ceil_le_mul _ _ hw)

theorem mem_split_text_chunks (s : String) (w : Nat) (x : String)
    (hx : x ∈ split_text_chunks s w) :
    ∃ j, j < (s.data.length + w - 1) / w ∧ x = py_slice s (j * w) w := by
  simp only [split_text_chunks, py_range_step, List.mem_map, List.mem_range] at hx
  obtain ⟨i, ⟨j, hj, rfl⟩, rfl⟩ := hx
  exact ⟨j, hj, rfl⟩

theorem split_text_chunks_ne_nil_elem (s : String) (w : Nat) (hw : 1 ≤ w)
    (x : String) (hx : x ∈ split_text_chunks s w) : x.data ≠ [] := by
  obtain ⟨j, hj, rfl⟩ := mem_split_text_chunks s w x hx
  have hlt : j * w < s.data.length := index_mul_lt _ _ _ hw hj
  show (s.data.drop (j * w)).take w ≠ []
  have hlen : ((s.data.drop (j * w)).take w).length = min w (s.data.length - j * w) := by
    rw [List.length_take, List.length_drop]
  intro hnil
  rw [hnil] at hlen
  simp only [List.length_nil] at hlen
  omega

theorem split_text_chunks_no_char (s : String) (w : Nat) (hw : 1 ≤ w)
    (x : String) (hx : x ∈ split_text_chunks s w) (c : Char) (hc : c ∈ x.data) :
    c ∈ s.data := by
  rw [← flatten_split_text_chunks s w hw]
  exact List.mem_flatten.mpr ⟨x.data, List.mem_map_of_mem _ hx, hc⟩

theorem split_text_chunks_ne_nil (s : String) (w : Nat) (hw : 1 ≤ w)
    (hs : s.data ≠ []) : split_text_chunks s w ≠ [] := by
  have hlen := length_split_text_chunks s w
  have hpos : 1 ≤ s.data.length := List.length_pos.mpr hs
  have h1 : 1 ≤ (s.data.length + w - 1) / w := by
    rw [Nat.one_le_div_iff (by omega)]
    omega
  intro h
  rw [h] at hlen
  simp only [List.length_nil] at hlen
  omega

/-! ### Helper lemmas about the alphabet test -/

theorem validate_sequence_iff (s A : String) :
    validate_sequence s A = true ↔ ∀ c ∈ (str_upper s).data, c ∈ A.data := by
  show decide ((py_translate_delete (str_upper s) A).data.length = 0) = true ↔ _
  rw [decide_eq_true_iff]
  show (((str_upper s).data).filter (fun c => decide (c ∉ A.data))).length = 0 ↔ _
  rw [List.length_eq_zero, List.filter_eq_nil_iff]
  constructor
  · intro h c hc
    simpa using h c hc
  · intro h c hc
    simpa using h c hc

theorem py_char_upper_eq_toUpper (c : Char)
    (hc : c ≠ 'ß' ∧ c ≠ 'ı' ∧ c ≠ 'ſ' ∧ c ≠ 'ŉ' ∧ c ≠ 'ﬀ' ∧ c ≠ 'ﬁ' ∧ c ≠ 'ﬂ'
      ∧ c ≠ 'ﬃ' ∧ c ≠ 'ﬄ' ∧ c ≠ 'ﬅ' ∧ c ≠ 'ﬆ') :
    py_char_upper c = [c.toUpper] := by
  obtain ⟨h1, h2, h3, h4, h5, h6, h7, h8, h9, h10, h11⟩ := hc
  unfold py_char_upper
  rw [if_neg h1, if_neg h2, if_neg h3, if_neg h4, if_neg h5, if_neg h6,
    if_neg h7, if_neg h8, if_neg h9, if_neg h10, if_neg h11]

theorem py_char_upper_of_mem (c : Char) (A : String)
    (hA : A = VALID_NUCLEIC_ACIDS ∨ A = VALID_AMINO_ACIDS)
    (h : c.toUpper ∈ A.data) : py_char_upper c = [c.toUpper] := by
  rcases hA with rfl | rfl <;>
    refine py_char_upper_eq_toUpper c ⟨?_, ?_, ?_, ?_, ?_, ?_, ?_, ?_, ?_, ?_, ?_⟩ <;>
      (intro he; subst he; revert h; decide)

theorem py_char_upper_ascii (c : Char) (h : c.toNat < 128) :
    py_char_upper c = [c.toUpper] := by
  refine py_char_upper_eq_toUpper c ⟨?_, ?_, ?_, ?_, ?_, ?_, ?_, ?_, ?_, ?_, ?_⟩ <;>
    (intro he; subst he; revert h; decide)

theorem flatten_upper_of_singletons (l : List Char)
    (h : ∀ c ∈ l, py_char_upper c = [c.toUpper]) :
    (l.map py_char_upper).flatten = l.map Char.toUpper := by
  induction l with
  | nil => rfl
  | cons x xs ih =>
    rw [List.map_cons, List.flatten_cons, h x (by simp), List.map_cons,
      ih (fun c hc => h c (by simp [hc]))]
    rfl

theorem validate_sequence_of_toUpper (s A : String)
    (hA : A = VALID_NUCLEIC_ACIDS ∨ A = VALID_AMINO_ACIDS)
    (h : ∀ c ∈ s.data, c.toUpper ∈ A.data) : validate_sequence s A = true := by
  rw [validate_sequence_iff]
  intro x hx
  have hx' : x ∈ (s.data.map py_char_upper).flatten := hx
  rw [List.mem_flatten] at hx'
  obtain ⟨l, hl, hxl⟩ := hx'
  rw [List.mem_map] at hl
  obtain ⟨c, hc, rfl⟩ := hl
  rw [py_char_upper_of_mem c A hA (h c hc)] at hxl
  simp only [List.mem_singleton] at hxl
  subst hxl
  exact h c hc

theorem no_break_of_upper_mem (c : Char)
    (hc : c.toUpper ∈ VALID_NUCLEIC_ACIDS.data ∨ c.toUpper ∈ VALID_AMINO_ACIDS.data) :
    isPyLineBreak c = false := by
  by_contra h
  have hb : isPyLineBreak c = true := by
    cases hcase : isPyLineBreak c with
    | false => exact absurd hcase h
    | true => rfl
  have hcases := (by simpa [isPyLineBreak] using hb :
    ((((((((c = '\n' ∨ c = '\x0d') ∨ c = '\x0b') ∨ c = '\x0c') ∨ c = '\x1c')
      ∨ c = '\x1d') ∨ c = '\x1e') ∨ c = '\x85') ∨ c = '\u2028') ∨ c = '\u2029')
  rcases hcases with ((((((((rfl|rfl)|rfl)|rfl)|rfl)|rfl)|rfl)|rfl)|rfl)|rfl <;>
    revert hc <;> decide

theorem py_join0_chunks (s : String) (w : Nat) (hw : 1 ≤ w) :
    py_join0 (split_text_chunks s w) = s := by
  show String.mk ((split_text_chunks s w).map String.data).flatten = s
  rw [flatten_split_text_chunks s w hw]

theorem splitlines_to_fasta_w (r : Sequence) (w : Nat) (hw : 1 ≤ w)
    (hh : ∀ c ∈ r.header.data, isPyLineBreak c = false)
    (hq : r.sequence.data ≠ [])
    (hbr : ∀ x ∈ split_text_chunks r.sequence w, ∀ c ∈ x.data, isPyLineBreak c = false) :
    py_splitlines (r.to_fasta_w w)
      = String.mk ('>' :: r.header.data) :: split_text_chunks r.sequence w := by
  have hchunks_ne : split_text_chunks r.sequence w ≠ [] :=
    split_text_chunks_ne_nil _ _ hw hq
  have hprops : ∀ l ∈ (split_text_chunks r.sequence w).map String.data,
      l ≠ [] ∧ ∀ c ∈ l, isPyLineBreak c = false := by
    intro l hl
    simp only [List.mem_map] at hl
    obtain ⟨x, hx, rfl⟩ := hl
    exact ⟨split_text_chunks_ne_nil_elem _ _ hw x hx, hbr x hx⟩
  show splitlinesGo (ENTRY_DELIM_CHAR.data ++ r.header.data
      ++ '\n' :: joinSep os_linesep.data ((split_text_chunks r.sequence w).map String.data))
      [] false = _
  have e1 : ENTRY_DELIM_CHAR.data = ['>'] := rfl
  have e2 : os_linesep.data = ['\n'] := rfl
  rw [e1, e2]
  have e3 : (['>'] ++ r.header.data
      ++ '\n' :: joinSep ['\n'] ((split_text_chunks r.sequence w).map String.data))
      = ('>' :: r.header.data)
        ++ '\n' :: joinSep ['\n'] ((split_text_chunks r.sequence w).map String.data) := by
    simp
  rw [e3, splitlinesGo_break ('>' :: r.header.data) '\n' _ []
    (fun y hy => by
      rcases List.mem_cons.mp hy with rfl | hmem
      · decide
      · exact hh y hmem)
    (by decide) (fun hab => absurd hab (by decide))]
  rw [splitlinesGo_joinSep _ (by simpa using hchunks_ne) hprops]
  rw [map_mk_data]
  simp

theorem roundtrip_parse_render (r : Sequence) (w : Nat) (hw : 1 ≤ w)
    (hh : ∀ c ∈ r.header.data, isPyLineBreak c = false)
    (hq : r.sequence.data ≠ [])
    (ha : (∀ c ∈ r.sequence.data, c.toUpper ∈ VALID_NUCLEIC_ACIDS.data)
        ∨ (∀ c ∈ r.sequence.data, c.toUpper ∈ VALID_AMINO_ACIDS.data)) :
    Sequence.validate_fasta (r.to_fasta_w w) = some ⟨r.header, r.sequence, none⟩ := by
  have hbr : ∀ x ∈ split_text_chunks r.sequence w, ∀ c ∈ x.data, isPyLineBreak c = false := by
    intro x hx c hc
    have hmem : c ∈ r.sequence.data := split_text_chunks_no_char _ _ hw x hx c hc
    apply no_break_of_upper_mem
    rcases ha with h | h
    · exact Or.inl (h c hmem)
    · exact Or.inr (h c hmem)
  have hsplit := splitlines_to_fasta_w r w hw hh hq hbr
  obtain ⟨c1, cs, hc⟩ : ∃ c1 cs, split_text_chunks r.sequence w = c1 :: cs := by
    cases hcc : split_text_chunks r.sequence w with
    | nil => exact absurd hcc (split_text_chunks_ne_nil _ _ hw hq)
    | cons a b => exact ⟨a, b, rfl⟩
  rw [hc] at hsplit
  have hstart : py_startswith (String.mk ('>' :: r.header.data)) ENTRY_DELIM_CHAR = true := by
    show decide (('>' :: r.header.data).take (ENTRY_DELIM_CHAR.data.length) = ENTRY_DELIM_CHAR.data) = true
    rw [decide_eq_true_iff]
    rfl
  have hseq : py_join0 (c1 :: cs) = r.sequence := by
    rw [← hc]
    exact py_join0_chunks _ _ hw
  have hvalid : (validate_sequence r.sequence VALID_NUCLEIC_ACIDS
      || validate_sequence r.sequence VALID_AMINO_ACIDS) = true := by
    rcases ha with h | h
    · rw [validate_sequence_of_toUpper _ _ (Or.inl rfl) h]
      simp
    · rw [validate_sequence_of_toUpper _ _ (Or.inr rfl) h]
      simp
  show Sequence.validate_fasta (r.to_fasta_w w) = _
  unfold Sequence.validate_fasta
  rw [hsplit]
  simp only [hstart, if_true, hseq, hvalid]
  simp only [List.drop_succ_cons, List.drop_zero, mk_data]

/-! ### Remaining structural lemmas about `validate_fasta` -/

theorem validate_fasta_eval (entry l0 l1 : String) (rest : List String)
    (hsp : py_splitlines entry = l0 :: l1 :: rest) :
    Sequence.validate_fasta entry
      = (if py_startswith l0 ENTRY_DELIM_CHAR then
          (if validate_sequence (py_join0 (l1 :: rest)) VALID_NUCLEIC_ACIDS
              || validate_sequence (py_join0 (l1 :: rest)) VALID_AMINO_ACIDS then
            some ⟨String.mk (l0.data.drop 1), py_join0 (l1 :: rest), none⟩
          else none)
        else none) := by
  unfold Sequence.validate_fasta
  rw [hsp]

theorem validate_fasta_short (entry : String)
    (hsp : (py_splitlines entry).length < 2) :
    Sequence.validate_fasta entry = none := by
  unfold Sequence.validate_fasta
  cases h : py_splitlines entry with
  | nil => rfl
  | cons l0 ls =>
    cases ls with
    | nil => rfl
    | cons l1 rest =>
      rw [h] at hsp
      simp at hsp
      omega

theorem validate_fasta_shape (entry : String) (r : Sequence)
    (h : Sequence.validate_fasta entry = some r) :
    ∃ l0 l1 rest, py_splitlines entry = l0 :: l1 :: rest
      ∧ py_startswith l0 ENTRY_DELIM_CHAR = true
      ∧ r.header = String.mk (l0.data.drop 1)
      ∧ r.sequence = py_join0 (l1 :: rest) ∧ r._fasta = none := by
  cases hsp : py_splitlines entry with
  | nil =>
    rw [validate_fasta_short entry (by rw [hsp]; simp)] at h
    exact absurd h (by simp)
  | cons l0 ls =>
    cases ls with
    | nil =>
      rw [validate_fasta_short entry (by rw [hsp]; simp)] at h
      exact absurd h (by simp)
    | cons l1 rest =>
      rw [validate_fasta_eval entry l0 l1 rest hsp] at h
      by_cases hs : py_startswith l0 ENTRY_DELIM_CHAR
      · rw [if_pos hs] at h
        by_cases hv : (validate_sequence (py_join0 (l1 :: rest)) VALID_NUCLEIC_ACIDS
            || validate_sequence (py_join0 (l1 :: rest)) VALID_AMINO_ACIDS) = true
        · rw [if_pos hv] at h
          obtain rfl := (Option.some.inj h).symm
          exact ⟨l0, l1, rest, rfl, hs, rfl, rfl, rfl⟩
        · rw [if_neg hv] at h
          exact absurd h (by simp)
      · rw [if_neg hs] at h
        exact absurd h (by simp)

/-! ### Claims -/

/-- Claim C1: the claim says the `fasta` setter raises `InvalidFastaSequence`
exactly when parsing fails, and otherwise updates the record.  In the code the
setter's first statement calls the non-existent attribute `self.validate`, so
every assignment — including one whose text parses successfully, as the second
conjunct shows — raises `AttributeError` instead. -/
theorem C1_assign_always_raises_AttributeError :
    (∀ (s : Sequence) (text : String),
      Sequence.fasta_set s text = Except.error PyExc.AttributeError)
    ∧ Sequence.validate_fasta ">h2\nTGCA" = some ⟨"h2", "TGCA", none⟩ :=
  ⟨fun _ _ => rfl, by decide⟩

/-- Claim C2: the claim says a successful assign replaces header and residues
and invalidates the cached rendering.  In the code the assignment raises
`AttributeError`; and even with the `self.validate` slip repaired
(`fasta_set_intended`), the update keeps the stale `_fasta` cache, so the next
read of the rendering returns the old text, not the rendering of the new
data. -/
theorem C2_assign_leaves_stale_cache :
    Sequence.fasta_set ⟨"h", "ACD", some ">h\nACD"⟩ ">h2\nTGCA"
      = Except.error PyExc.AttributeError
    ∧ Sequence.fasta_get ⟨"h", "ACD", none⟩
      = (">h\nACD", ⟨"h", "ACD", some ">h\nACD"⟩)
    ∧ Sequence.fasta_set_intended ⟨"h", "ACD", some ">h\nACD"⟩ ">h2\nTGCA"
      = Except.ok ⟨"h2", "TGCA", some ">h\nACD"⟩
    ∧ (Sequence.fasta_get ⟨"h2", "TGCA", some ">h\nACD"⟩).1 = ">h\nACD"
    ∧ (⟨"h2", "TGCA", some ">h\nACD"⟩ : Sequence).to_fasta = ">h2\nTGCA" :=
  ⟨rfl, by decide, by decide, by decide, by decide⟩

/-- Claim C3, counterexample: a record with empty residues satisfies every
premise of the claim (its residues vacuously lie in the nucleic alphabet and
its header has no line break), yet parsing its rendering at width 1 yields
Invalid rather than the record back: the rendering `">h\n"` has a single
line. -/
theorem C3_cex_empty_residues :
    (∀ c ∈ ("" : String).data, c.toUpper ∈ VALID_NUCLEIC_ACIDS.data)
    ∧ (∀ c ∈ ("h" : String).data, isPyLineBreak c = false)
    ∧ Sequence.validate_fasta ((⟨"h", "", none⟩ : Sequence).to_fasta_w 1) = none
    ∧ Sequence.validate_fasta ((⟨"h", "", none⟩ : Sequence).to_fasta_w 1)
        ≠ some ⟨"h", "", none⟩ := by decide

/-- Claim C3 as amended: for every record with NON-EMPTY residues drawn
entirely (case-insensitively) from one of the two alphabets and a header free
of line breaks, parsing the width-`w` rendering returns exactly the header
and residues, for any width `w ≥ 1`. -/
theorem C3_roundtrip (r : Sequence) (w : Nat) (hw : 1 ≤ w)
    (hh : ∀ c ∈ r.header.data, isPyLineBreak c = false)
    (hq : r.sequence.data ≠ [])
    (ha : (∀ c ∈ r.sequence.data, c.toUpper ∈ VALID_NUCLEIC_ACIDS.data)
        ∨ (∀ c ∈ r.sequence.data, c.toUpper ∈ VALID_AMINO_ACIDS.data)) :
    Sequence.validate_fasta (r.to_fasta_w w) = some ⟨r.header, r.sequence, none⟩ :=
  roundtrip_parse_render r w hw hh hq ha

/-- Witness for C3 at a concrete record and width. -/
theorem C3_roundtrip_witness :
    Sequence.validate_fasta ((⟨"h", "AcGt", none⟩ : Sequence).to_fasta_w 3)
      = some ⟨"h", "AcGt", none⟩ :=
  C3_roundtrip ⟨"h", "AcGt", none⟩ 3 (by decide) (by decide) (by decide)
    (Or.inl (by decide))

/-- Claim C4, counterexample: `">h\n\n"` (a header line followed by one blank
line) is accepted by `validate_fasta` and yields a record whose residues are
the empty string, contradicting the claim that parse never returns a record
with empty residues. -/
theorem C4_cex_empty_residues_accepted :
    Sequence.validate_fasta ">h\n\n" = some ⟨"h", "", none⟩
    ∧ (⟨"h", "", none⟩ : Sequence).sequence.data = [] := by decide

/-- Claim C4 as amended: a successful parse does guarantee at least one line
after the header, but the residues are merely the concatenation of those
lines, so they are empty exactly when every line after the header is empty. -/
theorem C4_residues_concat_of_tail (entry : String) (r : Sequence)
    (h : Sequence.validate_fasta entry = some r) :
    2 ≤ (py_splitlines entry).length
    ∧ (r.sequence.data = [] ↔ ∀ l ∈ (py_splitlines entry).tail, l.data = []) := by
  obtain ⟨l0, l1, rest, hsp, hs, hhd, hsq, hf⟩ := validate_fasta_shape entry r h
  constructor
  · rw [hsp]; simp
  · rw [hsp, hsq]
    show ((l1 :: rest).map String.data).flatten = [] ↔ _
    rw [List.flatten_eq_nil_iff]
    constructor
    · intro hall l hl
      exact hall l.data (List.mem_map_of_mem _ hl)
    · intro hall l hl
      simp only [List.mem_map] at hl
      obtain ⟨x, hx, rfl⟩ := hl
      exact hall x hx

/-- Witness for C4 at a concrete accepted entry. -/
theorem C4_witness :
    2 ≤ (py_splitlines ">hdr\nAC").length
    ∧ ((⟨"hdr", "AC", none⟩ : Sequence).sequence.data = []
        ↔ ∀ l ∈ (py_splitlines ">hdr\nAC").tail, l.data = []) :=
  C4_residues_concat_of_tail ">hdr\nAC" ⟨"hdr", "AC", none⟩ (by decide)

/-- Claim C5: once the structural and header gates pass, the parse succeeds
exactly when the joined residue lines pass the (uppercasing) nucleic-acid test
or the amino-acid test; on success the stored residues are the original-case
join of the residue lines, and on failure the result is the Invalid sentinel
(`none` — the function is total, no exception is modelled). -/
theorem C5_alphabet_gate (entry l0 l1 : String) (rest : List String)
    (hsp : py_splitlines entry = l0 :: l1 :: rest)
    (hd : py_startswith l0 ENTRY_DELIM_CHAR = true) :
    ((Sequence.validate_fasta entry).isSome = true
      ↔ (validate_sequence (py_join0 (l1 :: rest)) VALID_NUCLEIC_ACIDS = true
        ∨ validate_sequence (py_join0 (l1 :: rest)) VALID_AMINO_ACIDS = true))
    ∧ ((validate_sequence (py_join0 (l1 :: rest)) VALID_NUCLEIC_ACIDS = true
        ∨ validate_sequence (py_join0 (l1 :: rest)) VALID_AMINO_ACIDS = true)
      → Sequence.validate_fasta entry
          = some ⟨String.mk (l0.data.drop 1), py_join0 (l1 :: rest), none⟩) := by
  rw [validate_fasta_eval entry l0 l1 rest hsp, if_pos hd]
  by_cases hv : (validate_sequence (py_join0 (l1 :: rest)) VALID_NUCLEIC_ACIDS
      || validate_sequence (py_join0 (l1 :: rest)) VALID_AMINO_ACIDS) = true
  · rw [if_pos hv]
    rw [Bool.or_eq_true] at hv
    exact ⟨by simp [hv], fun _ => rfl⟩
  · rw [if_neg hv]
    rw [Bool.or_eq_true] at hv
    push_neg at hv
    constructor
    · simp only [Option.isSome_none]
      constructor
      · intro hfalse; exact absurd hfalse (by decide)
      · intro hor
        rcases hor with h1 | h1
        · exact absurd h1 hv.1
        · exact absurd h1 hv.2
    · intro hor
      rcases hor with h1 | h1
      · exact absurd h1 hv.1
      · exact absurd h1 hv.2

/-- Witness for C5 at a concrete entry. -/
theorem C5_witness :
    Sequence.validate_fasta ">h\nACGT" = some ⟨"h", "ACGT", none⟩ := by
  rw [(C5_alphabet_gate ">h\nACGT" ">h" "ACGT" [] (by decide) (by decide)).2
    (Or.inl (by decide))]
  decide

/-- Claim C6: fewer than two lines, or a first line not starting with `>`,
make the parse return Invalid; and any successful parse extracts the header
as line 0 minus its first character (no trimming) and the residues as the
separator-free concatenation of all remaining lines. -/
theorem C6_structure_and_extraction (entry : String) :
    ((py_splitlines entry).length < 2 → Sequence.validate_fasta entry = none)
    ∧ (∀ l0 rest, py_splitlines entry = l0 :: rest
        → py_startswith l0 ENTRY_DELIM_CHAR = false
        → Sequence.validate_fasta entry = none)
    ∧ (∀ r, Sequence.validate_fasta entry = some r
        → ∃ l0 l1 rest, py_splitlines entry = l0 :: l1 :: rest
          ∧ r.header = String.mk (l0.data.drop 1)
          ∧ r.sequence = py_join0 (l1 :: rest)) := by
  refine ⟨validate_fasta_short entry, ?_, ?_⟩
  · intro l0 rest hsp hd
    cases rest with
    | nil => exact validate_fasta_short entry (by rw [hsp]; simp)
    | cons l1 rest2 =>
      rw [validate_fasta_eval entry l0 l1 rest2 hsp, if_neg (by simp [hd])]
  · intro r h
    obtain ⟨l0, l1, rest, hsp, _, hhd, hsq, _⟩ := validate_fasta_shape entry r h
    exact ⟨l0, l1, rest, hsp, hhd, hsq⟩

/-- Witness for C6 at concrete entries (a single-line entry and an entry whose
first line lacks the delimiter). -/
theorem C6_witness :
    Sequence.validate_fasta ">only" = none
    ∧ Sequence.validate_fasta "no\nACGT" = none :=
  ⟨(C6_structure_and_extraction ">only").1 (by decide),
   (C6_structure_and_extraction "no\nACGT").2.1 "no" ["ACGT"] (by decide) (by decide)⟩

/-- Claim C7, counterexample: Python uppercases `'ß'` to the two-character
`"SS"`, and `S` lies in both alphabets, so both classifiers return true on
`"ß"` even though the character `'ß'`, uppercased as a character, belongs to
neither fixed set — refuting the claimed per-character biconditional. -/
theorem C7_cex_sharp_s :
    ¬(is_nucleic_acid "ß" = true
        ↔ ∀ c ∈ ("ß" : String).data, c.toUpper ∈ VALID_NUCLEIC_ACIDS.data)
    ∧ is_nucleic_acid "ß" = true
    ∧ is_amino_acid "ß" = true
    ∧ str_upper "ß" = "SS"
    ∧ (∀ c ∈ ("ß" : String).data,
        c.toUpper ∉ VALID_NUCLEIC_ACIDS.data ∧ c.toUpper ∉ VALID_AMINO_ACIDS.data) := by
  decide

/-- Claim C7 as amended: each classifier returns true exactly when every
character of the Python-UPPERCASED string lies in its fixed set; for strings
of ASCII characters this coincides with the original per-character reading
(every character of `s`, uppercased, in the set), but Unicode special casings
such as `'ß' → "SS"` can carry outside characters into the alphabets.  Both
classifiers accept the empty string, and both are total by construction. -/
theorem C7_classifier_characterisation (s : String) :
    ((is_nucleic_acid s = true ↔ ∀ c ∈ (str_upper s).data, c ∈ VALID_NUCLEIC_ACIDS.data)
      ∧ (is_amino_acid s = true ↔ ∀ c ∈ (str_upper s).data, c ∈ VALID_AMINO_ACIDS.data))
    ∧ ((∀ c ∈ s.data, c.toNat < 128) →
        ((is_nucleic_acid s = true ↔ ∀ c ∈ s.data, c.toUpper ∈ VALID_NUCLEIC_ACIDS.data)
          ∧ (is_amino_acid s = true ↔ ∀ c ∈ s.data, c.toUpper ∈ VALID_AMINO_ACIDS.data)))
    ∧ is_nucleic_acid "" = true ∧ is_amino_acid "" = true := by
  refine ⟨⟨validate_sequence_iff s _, validate_sequence_iff s _⟩, ?_, by decide, by decide⟩
  intro hascii
  have hupper : (str_upper s).data = s.data.map Char.toUpper :=
    flatten_upper_of_singletons s.data (fun c hc => py_char_upper_ascii c (hascii c hc))
  have hmem : ∀ A : String, ((∀ c ∈ (str_upper s).data, c ∈ A.data)
      ↔ ∀ c ∈ s.data, c.toUpper ∈ A.data) := by
    intro A
    rw [hupper]
    constructor
    · intro h c hc
      exact h c.toUpper (List.mem_map_of_mem _ hc)
    · intro h x hx
      rw [List.mem_map] at hx
      obtain ⟨c, hc, rfl⟩ := hx
      exact h c hc
  exact ⟨(validate_sequence_iff s _).trans (hmem _),
    (validate_sequence_iff s _).trans (hmem _)⟩

/-- Witness for C7's ASCII-restricted per-character reading at a concrete
lower-case string. -/
theorem C7_witness :
    (is_nucleic_acid "acgu-" = true
      ↔ ∀ c ∈ ("acgu-" : String).data, c.toUpper ∈ VALID_NUCLEIC_ACIDS.data)
    ∧ (is_amino_acid "acgu-" = true
      ↔ ∀ c ∈ ("acgu-" : String).data, c.toUpper ∈ VALID_AMINO_ACIDS.data) :=
  (C7_classifier_characterisation "acgu-").2.1 (by decide)

/-- Claim C8: the wrapper cuts the residue string into consecutive
`line_width`-sized slices — chunk `i` is exactly `s[i*w : i*w + w]` — all of
length `w` except possibly the last, which is nonempty and no longer than
`w`; an empty string yields no chunks; and a string of length 85 at width 80
yields chunk lengths `[80, 5]`. -/
theorem C8_wrap_characterisation (s : String) (w : Nat) (hw : 1 ≤ w) :
    (split_text_chunks s w = [] ↔ s.data = [])
    ∧ (∀ i, (hi : i < (split_text_chunks s w).length)
        → ((split_text_chunks s w).get ⟨i, hi⟩).data = (s.data.drop (i * w)).take w)
    ∧ (∀ i, (hi : i < (split_text_chunks s w).length) → i + 1 < (split_text_chunks s w).length
        → ((split_text_chunks s w).get ⟨i, hi⟩).data.length = w)
    ∧ (∀ i, (hi : i < (split_text_chunks s w).length)
        → ((split_text_chunks s w).get ⟨i, hi⟩).data.length ≤ w
          ∧ ((split_text_chunks s w).get ⟨i, hi⟩).data ≠ [])
    ∧ (split_text_chunks (String.mk (List.replicate 85 'A')) 80).map
        (fun c => c.data.length) = [80, 5] := by
  have hget : ∀ i, (hi : i < (split_text_chunks s w).length)
      → ((split_text_chunks s w).get ⟨i, hi⟩).data = (s.data.drop (i * w)).take w := by
    intro i hi
    have hi' := hi
    rw [length_split_text_chunks] at hi'
    simp [split_text_chunks, py_range_step, py_slice, List.get_eq_getElem]
  refine ⟨?_, hget, ?_, ?_, by decide⟩
  · constructor
    · intro h
      by_contra hs
      exact split_text_chunks_ne_nil s w hw hs h
    · intro h
      have : (split_text_chunks s w).length = 0 := by
        rw [length_split_text_chunks, h]
        simp only [List.length_nil, Nat.zero_add]
        exact Nat.div_eq_of_lt (by omega)
      exact List.eq_nil_of_length_eq_zero this
  · intro i hi hlast
    rw [hget i hi, List.length_take, List.length_drop]
    rw [length_split_text_chunks] at hlast
    have hml := index_mul_lt s.data.length w (i + 1) hw hlast
    rw [Nat.succ_mul] at hml
    generalize i * w = A at *
    omega
  · intro i hi
    rw [hget i hi, List.length_take, List.length_drop]
    rw [length_split_text_chunks] at hi
    have hml := index_mul_lt s.data.length w i hw hi
    constructor
    · omega
    · intro hnil
      have := congrArg List.length hnil
      rw [List.length_take, List.length_drop, List.length_nil] at this
      generalize i * w = A at *
      omega

/-- Witness for C8: the 85-character/width-80 instance. -/
theorem C8_witness :
    (split_text_chunks (String.mk (List.replicate 85 'A')) 80).map
      (fun c => c.data.length) = [80, 5] :=
  (C8_wrap_characterisation (String.mk (List.replicate 85 'A')) 80 (by decide)).2.2.2.2

/-- Claim C9, counterexample: a lone carriage return DOES start a new line in
`splitlines`, so `">h\rACGT"` has two lines and parses to a record, where the
claim (splitting only at `\n` or `\r\n`) would see a single line and demand
Invalid. -/
theorem C9_cex_lone_carriage_return :
    py_splitlines ">h\rACGT" = [">h", "ACGT"]
    ∧ Sequence.validate_fasta ">h\rACGT" = some ⟨"h", "ACGT", none⟩ := by decide

/-- Claim C9 as amended: `splitlines` splits at every Python universal line
boundary — `\n`, `\r\n` (as one break), and also lone `\r`, `\x0b`, `\x0c`,
`\x1c`, `\x1d`, `\x1e`, `\x85`, U+2028, U+2029 — and at nothing else: a
break-free string is a single line, and the line before each boundary is
emitted with the boundary consumed. -/
theorem C9_splitlines_characterisation :
    py_splitlines "" = []
    ∧ (∀ a : List Char, a ≠ [] → (∀ c ∈ a, isPyLineBreak c = false)
        → py_splitlines (String.mk a) = [String.mk a])
    ∧ (∀ (a b : List Char) (c : Char), (∀ x ∈ a, isPyLineBreak x = false)
        → isPyLineBreak c = true → (c = '\r' → b.head? ≠ some '\n')
        → py_splitlines (String.mk (a ++ c :: b))
            = String.mk a :: py_splitlines (String.mk b))
    ∧ (∀ a b : List Char, (∀ x ∈ a, isPyLineBreak x = false)
        → py_splitlines (String.mk (a ++ '\r' :: '\n' :: b))
            = String.mk a :: py_splitlines (String.mk b)) := by
  refine ⟨rfl, ?_, ?_, ?_⟩
  · intro a ha hbr
    show splitlinesGo a [] false = _
    rw [splitlinesGo_last a [] hbr (by simpa using ha)]
    simp
  · intro a b c ha hc hcr
    show splitlinesGo (a ++ c :: b) [] false = _
    rw [splitlinesGo_break a c b [] ha hc hcr]
    simp [py_splitlines]
  · intro a b ha
    show splitlinesGo (a ++ '\r' :: '\n' :: b) [] false = _
    rw [splitlinesGo_crlf a b [] ha]
    simp [py_splitlines]

/-- Witness for C9 at a concrete vertical-tab-separated string. -/
theorem C9_witness :
    py_splitlines (String.mk (['>', 'h'] ++ '\x0b' :: ['A', 'C'])) 
      = String.mk ['>', 'h'] :: py_splitlines (String.mk ['A', 'C']) :=
  C9_splitlines_characterisation.2.2.1 ['>', 'h'] ['A', 'C'] '\x0b'
    (by decide) (by decide) (fun h => absurd h (by decide))

/-- Claim C10: concatenating the wrapper's chunks with the empty separator
recovers the input string exactly, for every string and every width `w ≥ 1`. -/
theorem C10_chunks_concat (s : String) (w : Nat) (hw : 1 ≤ w) :
    py_join0 (split_text_chunks s w) = s :=
  py_join0_chunks s w hw

/-- Witness for C10 at a concrete string outside both alphabets. -/
theorem C10_witness : py_join0 (split_text_chunks "j!?~ж" 2) = "j!?~ж" :=
  C10_chunks_concat "j!?~ж" 2 (by decide)
